import Mathlib

/-!
Verification of the Chan-theory ("chanlun") analysis pipeline of
`akshare/api/analysis/chanlun_core.py` against its natural-language
specification.

The Python source is shallowly embedded below: prices are rationals,
timestamps are integers (day granularity, matching the `.days`
arithmetic the source performs), and every stage is an executable Lean
function mirroring the source's control flow.  Field and function names
follow the source (`open` is a Lean keyword, so the bar field is called
`opn`; diagnostic description strings built by the source are kept as a
field but the exact text is not modelled, since nothing reads it).
-/

namespace Chanlun

/-- `Direction` enum of the source. -/
inductive Direction where
  | up
  | down
deriving DecidableEq, Repr, Inhabited

/-- `FractalType` enum of the source. -/
inductive FractalType where
  | top
  | bottom
deriving DecidableEq, Repr, Inhabited

/-- `TradePointType` enum of the source. -/
inductive TradePointType where
  | buy1
  | buy2
  | buy3
  | sell1
  | sell2
  | sell3
deriving DecidableEq, Repr

/-- `Bar` dataclass: one OHLCV bar.  `opn` is the source's `open`. -/
structure Bar where
  dt : ℤ
  opn : ℚ
  close : ℚ
  high : ℚ
  low : ℚ
  vol : ℚ := 0
  symbol : String := ""
  index : ℤ := 0
deriving DecidableEq, Repr, Inhabited

/-- The geometric invariants enforced by `Bar.__post_init__` (the
constructor raises iff one of these fails). -/
def Bar.Valid (b : Bar) : Prop :=
  b.low ≤ b.high ∧ max b.opn b.close ≤ b.high ∧ b.low ≤ min b.opn b.close

instance (b : Bar) : Decidable b.Valid := by
  unfold Bar.Valid; infer_instance

/-- `Bar.direction`: `UP` iff `close >= open`. -/
def Bar.direction (b : Bar) : Direction :=
  if b.opn ≤ b.close then Direction.up else Direction.down

/-- `ChanlunAnalyzer._has_inclusion`: one bar's [low, high] range fully
contains the other's. -/
def hasInclusion (bar1 bar2 : Bar) : Bool :=
  (decide (bar2.high ≤ bar1.high) && decide (bar1.low ≤ bar2.low)) ||
  (decide (bar1.high ≤ bar2.high) && decide (bar2.low ≤ bar1.low))

/-- The contained-bar merge of `_merge_bars`: given the trend direction
`d`, fold `current` into `last` (up: high = max, low = max of lows;
down: high = min of highs, low = min; open/close clamped into the new
range; volumes summed; timestamp/symbol/index taken from `current`). -/
def mergeTwo (d : Direction) (last current : Bar) : Bar :=
  match d with
  | Direction.up =>
      let newHigh := max last.high current.high
      let newLow := max last.low current.low
      { dt := current.dt
        opn := max (min last.opn newHigh) newLow
        close := max (min current.close newHigh) newLow
        high := newHigh
        low := newLow
        vol := last.vol + current.vol
        symbol := current.symbol
        index := current.index }
  | Direction.down =>
      let newHigh := min last.high current.high
      let newLow := min last.low current.low
      { dt := current.dt
        opn := max (min last.opn newHigh) newLow
        close := max (min current.close newHigh) newLow
        high := newHigh
        low := newLow
        vol := last.vol + current.vol
        symbol := current.symbol
        index := current.index }

/-- One iteration of the `_merge_bars` loop: test `current` against the
last accumulated bar; on inclusion, replace the last bar by the merge,
choosing the trend from the bar two positions back in the accumulator
(`merged[-2]`) when at least two bars are accumulated, else the last
bar's own direction. -/
def mergeStep (merged : List Bar) (current : Bar) : List Bar :=
  match merged.getLast? with
  | none => [current]
  | some last =>
      if hasInclusion last current then
        let d := ((merged.dropLast.getLast?).map Bar.direction).getD last.direction
        merged.dropLast ++ [mergeTwo d last current]
      else
        merged ++ [current]

/-- `ChanlunAnalyzer._merge_bars`: fold the whole bar list, seeding the
accumulator with the first bar.  Inputs of fewer than two bars pass
through unchanged. -/
def mergeBars (barsRaw : List Bar) : List Bar :=
  match barsRaw with
  | [] => []
  | [b] => [b]
  | b :: rest => rest.foldl mergeStep [b]

/-! ### Momentum series (`_calculate_macd`) -/

/-- The inner loop of the source's `ema`: given `alpha` and the
previous output value, each new value is `alpha * x + (1 - alpha) * prev`. -/
def emaGo (alpha : ℚ) : ℚ → List ℚ → List ℚ
  | _, [] => []
  | prev, x :: xs =>
      let v := alpha * x + (1 - alpha) * prev
      v :: emaGo alpha v xs

/-- The source's `ema(data, period)`: seeded with the first input value,
`alpha = 2 / (period + 1)`. -/
def ema (data : List ℚ) (period : ℕ) : List ℚ :=
  match data with
  | [] => []
  | x :: xs => x :: emaGo (2 / ((period : ℚ) + 1)) x xs

/-- `ChanlunAnalyzer._calculate_macd` on the merged-bar closes: returns
`(dif, dea, hist)`; all three are empty when fewer closes than the
`long` period exist. -/
def calculateMacd (closes : List ℚ) (short long signal : ℕ) :
    List ℚ × List ℚ × List ℚ :=
  if closes.length < long then ([], [], [])
  else
    let emaShort := ema closes short
    let emaLong := ema closes long
    let dif := List.zipWith (fun a b => a - b) emaShort emaLong
    let dea := ema dif signal
    let hist := List.zipWith (fun a b => (a - b) * 2) dif dea
    (dif, dea, hist)

/-! ### Fractals -/

/-- `Fractal` dataclass. -/
structure Fractal where
  fractal_type : FractalType
  dt : ℤ
  high : ℚ
  low : ℚ
  power : ℚ := 0
  bars : List Bar := []
  index : ℕ := 0
deriving DecidableEq, Repr, Inhabited

/-- `Fractal.price`: the key price — high for a top, low for a bottom. -/
def Fractal.price (f : Fractal) : ℚ :=
  match f.fractal_type with
  | FractalType.top => f.high
  | FractalType.bottom => f.low

/-! ### Strokes (`_identify_strokes` and helpers) -/

/-- The center-bar index used by `_has_enough_bars_between`:
`f.bars[1].index` when the fractal has at least two constituent bars,
else `f.bars[0].index` (the source only reaches this with `f.bars`
nonempty; the empty case defaults to 0 here and is never used). -/
def centerBarIndex (f : Fractal) : ℤ :=
  match f.bars.get? 1 with
  | some b => b.index
  | none => ((f.bars.get? 0).map Bar.index).getD 0

/-- The timestamp fallback of `_has_enough_bars_between`: the source's
linear scan overwrites the found index on every match, so it yields the
LAST position in `barsMerged` whose timestamp equals `dt` (`none` models
the sentinel -1). -/
def lastIdxWithDt (barsMerged : List Bar) (dt : ℤ) : Option ℕ :=
  ((List.range barsMerged.length).filter
    (fun idx => ((barsMerged.get? idx).map Bar.dt).getD (dt + 1) = dt)).getLast?

/-- `ChanlunAnalyzer._has_enough_bars_between`: first compares the
fractals' positions in the fractal list (difference ≥ 1 admits the
pair); only when those coincide does it compare center-bar indices
(≥ 3), falling back to the timestamp search, and finally failing open
(returning `true`) when the search cannot locate either fractal. -/
def hasEnoughBarsBetween (barsMerged : List Bar) (f1 f2 : Fractal) : Bool :=
  if 1 ≤ ((f2.index : ℤ) - (f1.index : ℤ)).natAbs then true
  else if f1.bars ≠ [] ∧ f2.bars ≠ [] then
    decide (3 ≤ (centerBarIndex f2 - centerBarIndex f1).natAbs)
  else
    match lastIdxWithDt barsMerged f1.dt, lastIdxWithDt barsMerged f2.dt with
    | some a, some b => decide (3 ≤ ((b : ℤ) - (a : ℤ)).natAbs)
    | _, _ => true

/-- `ChanlunAnalyzer._get_bar_index`: first position in `barsMerged`
with the given timestamp, -1 when absent. -/
def getBarIndex (barsMerged : List Bar) (dt : ℤ) : ℤ :=
  match barsMerged.findIdx? (fun b => b.dt = dt) with
  | some k => (k : ℤ)
  | none => -1

/-- The price-relation check of `_identify_strokes`: from a bottom
start, a candidate with a strictly higher high gives an up stroke; from
a top start, a candidate with a strictly lower low gives a down
stroke. -/
def directionFor (cs cand : Fractal) : Option Direction :=
  match cs.fractal_type with
  | FractalType.bottom =>
      if cs.high < cand.high then some Direction.up else none
  | FractalType.top =>
      if cand.low < cs.low then some Direction.down else none

/-- The same-type branch of `_identify_strokes`: a fractal of the same
type as the current start replaces it only when more extreme (higher
high for a top start, lower low for a bottom start). -/
def replaceStart (cs cand : Fractal) : Fractal :=
  match cs.fractal_type with
  | FractalType.top => if cs.high < cand.high then cand else cs
  | FractalType.bottom => if cand.low < cs.low then cand else cs

/-- Whether fractal `g` can validly end a stroke starting at fractal
`f` (different type, enough bars between, price relation holds) — the
inner test of `_find_first_valid_start`. -/
def validPair (barsMerged : List Bar) (f g : Fractal) : Bool :=
  decide (g.fractal_type ≠ f.fractal_type) &&
  hasEnoughBarsBetween barsMerged f g &&
  (directionFor f g).isSome

/-- `_find_first_valid_start`: the first fractal that can extend to some
fractal among the next candidates `j ∈ [i+1, min (i+15) n)`; falls back
to the first fractal of the list. -/
def findFirstValidStart (barsMerged : List Bar) (fractals : List Fractal) :
    Option Fractal :=
  match (List.range fractals.length).find? (fun i =>
      (List.range' (i + 1) (min (i + 15) fractals.length - (i + 1))).any
        (fun j => ((fractals.get? j).map
          (fun g => validPair barsMerged (fractals.getD i g) g)).getD false)) with
  | some i => fractals.get? i
  | none => fractals.head?

/-- The look-ahead of `_identify_strokes`: starting from the best pair
`(bf, bi)`, scan the indices `js`, stopping at the first fractal whose
type differs from `t` (the candidate end's type) and otherwise keeping
the more extreme fractal for the stroke direction `d`. -/
def lookAheadGo (fractals : List Fractal) (d : Direction) (t : FractalType) :
    List ℕ → Fractal × ℕ → Fractal × ℕ
  | [], b => b
  | j :: js, (bf, bi) =>
      match fractals.get? j with
      | none => (bf, bi)
      | some nf =>
          if nf.fractal_type ≠ t then (bf, bi)
          else
            let b' :=
              match d with
              | Direction.up => if bf.high < nf.high then (nf, j) else (bf, bi)
              | Direction.down => if nf.low < bf.low then (nf, j) else (bf, bi)
            lookAheadGo fractals d t js b'

/-- The full look-ahead from candidate `cand` at position `i`: scan up to
nine further fractals (`range(i+1, min(i+10, n))`). -/
def lookAhead (fractals : List Fractal) (d : Direction) (cand : Fractal)
    (i : ℕ) : Fractal × ℕ :=
  lookAheadGo fractals d cand.fractal_type
    (List.range' (i + 1) (min (i + 10) fractals.length - (i + 1))) (cand, i)

/-- `Stroke` dataclass: direction plus start/end fractals held by
reference; `macd_area` and the bar indices are filled by later stages. -/
structure Stroke where
  direction : Direction
  start_fractal : Fractal
  end_fractal : Fractal
  index : ℕ := 0
  macd_area : ℚ := 0
  bar_start_idx : ℤ := -1
  bar_end_idx : ℤ := -1
deriving DecidableEq, Repr

/-- `Stroke.start_dt`. -/
def Stroke.start_dt (s : Stroke) : ℤ := s.start_fractal.dt

/-- `Stroke.end_dt`. -/
def Stroke.end_dt (s : Stroke) : ℤ := s.end_fractal.dt

/-- `Stroke.start_price`. -/
def Stroke.start_price (s : Stroke) : ℚ := s.start_fractal.price

/-- `Stroke.end_price`. -/
def Stroke.end_price (s : Stroke) : ℚ := s.end_fractal.price

/-- `Stroke.high` = max of both fractals' highs. -/
def Stroke.high (s : Stroke) : ℚ := max s.start_fractal.high s.end_fractal.high

/-- `Stroke.low` = min of both fractals' lows. -/
def Stroke.low (s : Stroke) : ℚ := min s.start_fractal.low s.end_fractal.low

/-- `Stroke.power` = |end price − start price|. -/
def Stroke.power (s : Stroke) : ℚ := |s.end_price - s.start_price|

/-- The main loop of `_identify_strokes`, carrying the current start
fractal `cs`, the scan position `i` and the strokes emitted so far.  A
same-type fractal replaces the start when more extreme; a
different-type fractal must pass the separation and price checks, the
look-ahead then absorbs a run of same-type fractals at the far end, the
stroke is emitted, and its end fractal becomes the next start.  The
`fuel` argument only bounds the number of iterations so the recursion
is structural: the scan position strictly increases at every iteration,
so the caller's fuel of `fractals.length + 1` is never exhausted and
the function computes exactly the source's while-loop. -/
def strokesLoop (barsMerged : List Bar) (fractals : List Fractal) :
    ℕ → Fractal → ℕ → List Stroke → List Stroke
  | 0, _, _, acc => acc
  | fuel + 1, cs, i, acc =>
    if h : i < fractals.length then
      let cand := fractals.get ⟨i, h⟩
      if cand.fractal_type = cs.fractal_type then
        strokesLoop barsMerged fractals fuel (replaceStart cs cand) (i + 1) acc
      else if hasEnoughBarsBetween barsMerged cs cand then
        match directionFor cs cand with
        | some d =>
            let be := lookAhead fractals d cand i
            let stroke : Stroke :=
              { direction := d
                start_fractal := cs
                end_fractal := be.1
                index := acc.length
                bar_start_idx := getBarIndex barsMerged cs.dt
                bar_end_idx := getBarIndex barsMerged be.1.dt }
            strokesLoop barsMerged fractals fuel be.1 (be.2 + 1) (acc ++ [stroke])
        | none => strokesLoop barsMerged fractals fuel cs (i + 1) acc
      else
        strokesLoop barsMerged fractals fuel cs (i + 1) acc
    else acc

/-- `ChanlunAnalyzer._identify_strokes`: fewer than two fractals yield no
strokes; otherwise start from the first valid start fractal (defaulting
to the head of the list) and run the main loop from the position after
it. -/
def identifyStrokes (barsMerged : List Bar) (fractals : List Fractal) :
    List Stroke :=
  if fractals.length < 2 then []
  else
    let cs := (findFirstValidStart barsMerged fractals).getD
      (fractals.headD default)
    strokesLoop barsMerged fractals (fractals.length + 1) cs
      (fractals.indexOf cs + 1) []

/-! ### Pivots (`_identify_pivots`) -/

/-- `TrendType` enum of the source. -/
inductive TrendType where
  | trendUp
  | trendDown
  | consolidation
  | unknown
deriving DecidableEq, Repr, Inhabited

/-- `Pivot` dataclass. -/
structure Pivot where
  level : ℕ
  direction : Direction
  high : ℚ
  low : ℚ
  start_dt : ℤ
  end_dt : ℤ
  strokes : List Stroke := []
  index : ℕ := 0
  trend_type : TrendType := TrendType.unknown
deriving DecidableEq, Repr

/-- The greedy extension loop of `_identify_pivots`: from position `j`,
absorb every subsequent stroke whose range intersects the current band,
narrowing the band each time; returns the final band, the absorbed
strokes and the stop position.  `fuel` only bounds the iteration count
to make the recursion structural; the caller's `strokes.length + 1` is
never exhausted since `j` strictly increases. -/
def absorb (strokes : List Stroke) :
    ℕ → ℕ → ℚ → ℚ → List Stroke → ℚ × ℚ × List Stroke × ℕ
  | 0, j, oh, ol, acc => (oh, ol, acc, j)
  | fuel + 1, j, oh, ol, acc =>
    match strokes.get? j with
    | none => (oh, ol, acc, j)
    | some s =>
        if decide (s.low ≤ oh) && decide (ol ≤ s.high) then
          absorb strokes fuel (j + 1) (min oh s.high) (max ol s.low) (acc ++ [s])
        else (oh, ol, acc, j)

/-- The outer loop of `_identify_pivots`: window of three strokes; a
non-empty strict overlap seeds a pivot which is then greedily extended;
scanning resumes after the absorbed run.  `fuel` only bounds the
iteration count to make the recursion structural; the caller's
`strokes.length + 1` is never exhausted since the scan position
strictly increases. -/
def pivotsLoop (strokes : List Stroke) : ℕ → ℕ → List Pivot → List Pivot
  | 0, _, acc => acc
  | fuel + 1, i, acc =>
    if h : i + 3 ≤ strokes.length then
      let s1 := strokes.get ⟨i, by omega⟩
      let s2 := strokes.get ⟨i + 1, by omega⟩
      let s3 := strokes.get ⟨i + 2, by omega⟩
      let overlapHigh := min s1.high (min s2.high s3.high)
      let overlapLow := max s1.low (max s2.low s3.low)
      if overlapLow < overlapHigh then
        let r := absorb strokes (strokes.length + 1) (i + 3) overlapHigh
          overlapLow [s1, s2, s3]
        let pivot : Pivot :=
          { level := 1
            direction := s1.direction
            high := r.1
            low := r.2.1
            start_dt := ((r.2.2.1.head?).map Stroke.start_dt).getD 0
            end_dt := ((r.2.2.1.getLast?).map Stroke.end_dt).getD 0
            strokes := r.2.2.1
            index := acc.length }
        pivotsLoop strokes fuel r.2.2.2 (acc ++ [pivot])
      else pivotsLoop strokes fuel (i + 1) acc
    else acc

/-- `ChanlunAnalyzer._identify_pivots`: fewer than three strokes yield
no pivots; otherwise run the scanning loop from position 0. -/
def identifyPivots (strokes : List Stroke) : List Pivot :=
  if strokes.length < 3 then []
  else pivotsLoop strokes (strokes.length + 1) 0 []

/-! ### Trade points -/

/-- `TradePoint` dataclass.  The human-readable `description` string the
source formats is diagnostic only and is not modelled (kept as a field
defaulting to `""` so the record shape matches the source). -/
structure TradePoint where
  point_type : TradePointType
  dt : ℤ
  price : ℚ
  strength : ℚ := 0
  macd_strength : ℚ := 0
  description : String := ""
  index : ℕ := 0
deriving DecidableEq, Repr

/-- One pivot's work in `_identify_third_class_points`: locate the first
stroke ending at the pivot's end time, take the leaving stroke and the
return stroke, and append a `BUY_3` point when the leaving stroke exits
cleanly above the pivot and the return stroke stays above it.  In the
mirrored `SELL_3` branch the source constructs the trade point but
never appends it to the list, so that branch leaves the list
unchanged — this embedding reproduces that faithfully. -/
def thirdClassStep (strokes : List Stroke) (tradePoints : List TradePoint)
    (pivot : Pivot) : List TradePoint :=
  match strokes.findIdx? (fun s => s.end_dt = pivot.end_dt) with
  | none => tradePoints
  | some j =>
      if strokes.length ≤ j + 2 then tradePoints
      else
        match strokes.get? (j + 1), strokes.get? (j + 2) with
        | some leaveStroke, some returnStroke =>
            let afterBuy :=
              if leaveStroke.direction = Direction.up ∧
                  pivot.high < leaveStroke.low then
                if returnStroke.direction = Direction.down ∧
                    pivot.high < returnStroke.low then
                  tradePoints ++ [{ point_type := TradePointType.buy3
                                    dt := returnStroke.end_dt
                                    price := returnStroke.end_price
                                    strength := 7/10
                                    index := tradePoints.length }]
                else tradePoints
              else tradePoints
            -- SELL_3: the source builds
            -- `TradePoint(point_type=SELL_3, ..., strength=0.7, ...)`
            -- here when `leave.direction = DOWN ∧ leave.high < pivot.low ∧
            -- return.direction = UP ∧ return.high < pivot.low`, but the
            -- `trade_points.append` call is missing, so the constructed
            -- point is dropped and the list is returned as `afterBuy`.
            afterBuy
        | _, _ => tradePoints

/-- `ChanlunAnalyzer._identify_third_class_points`: fold over all
pivots. -/
def identifyThirdClassPoints (strokes : List Stroke) (pivots : List Pivot)
    (tradePoints : List TradePoint) : List TradePoint :=
  pivots.foldl (thirdClassStep strokes) tradePoints

/-! ### Multi-level nested confirmation
(`MultiLevelAnalyzer._find_nested_trade_points`)

The analyzer table (`self.analyzers`, a dict from level to analyzer) is
modelled as an association list from level to that level's trade-point
list. -/

/-- Whether one higher level confirms `base`: some trade point of the
same type within that level's time tolerance of `level * 5` days. -/
def levelConfirms (base : TradePoint) (level : ℕ)
    (points : List TradePoint) : Bool :=
  points.any (fun h =>
    decide (h.point_type = base.point_type) &&
    decide ((h.dt - base.dt).natAbs ≤ level * 5))

/-- The number of levels in `2, …, levels` that are present in the
analyzer table and confirm `base` (the source's
`confirmation_count - 1`). -/
def confirmingLevels (tbl : List (ℕ × List TradePoint)) (levels : ℕ)
    (base : TradePoint) : ℕ :=
  ((List.range' 2 (levels - 1)).filter (fun lv =>
      match tbl.lookup lv with
      | some pts => levelConfirms base lv pts
      | none => false)).length

/-- The nested trade point built from `base` once `k ≥ 1` additional
levels confirm it: same type/time/price, strength boosted by 0.1 per
confirming level and capped at 0.98. -/
def boostedPoint (base : TradePoint) (k : ℕ) (idx : ℕ) : TradePoint :=
  { point_type := base.point_type
    dt := base.dt
    price := base.price
    strength := min (98/100) (base.strength + (1/10) * k)
    macd_strength := base.macd_strength
    index := idx }

/-- The per-base-point body of `_find_nested_trade_points`: with
`confirmation_count = 1 + k` where `k` counts the confirming higher
levels, a nested point is appended when `confirmation_count >= 2`. -/
def nestedStep (tbl : List (ℕ × List TradePoint)) (levels : ℕ)
    (acc : List TradePoint) (base : TradePoint) : List TradePoint :=
  let k := confirmingLevels tbl levels base
  if 2 ≤ k + 1 then acc ++ [boostedPoint base k acc.length] else acc

/-- `MultiLevelAnalyzer._find_nested_trade_points`: walk the level-1
trade points; each one confirmed by at least one higher level becomes a
nested trade point. -/
def findNestedTradePoints (tbl : List (ℕ × List TradePoint))
    (levels : ℕ) : List TradePoint :=
  ((tbl.lookup 1).getD []).foldl (nestedStep tbl levels) []

/-! ### Spec-side auxiliary definitions -/

/-- The merge-trend selection as the spec words it: "the trend of the
bar two positions back in the accumulator (or the last bar's own
direction if fewer than two accumulated)".  Stated with a positional
lookup so it can be compared against the code's
`dropLast.getLast?`-based selection in `mergeStep`. -/
def specTrendDirection (acc : List Bar) (last : Bar) : Direction :=
  if 2 ≤ acc.length then
    ((acc.get? (acc.length - 2)).map Bar.direction).getD last.direction
  else last.direction

/-- Stroke monotonic validity: an up stroke ends strictly above its
start price, a down stroke strictly below. -/
def strokeMono (s : Stroke) : Prop :=
  (s.direction = Direction.up → s.start_price < s.end_price) ∧
  (s.direction = Direction.down → s.end_price < s.start_price)

/-- The amended pivot overlap invariant: a weakly ordered band and
every constituent stroke's range intersecting it. -/
def pivotBandInvariant (p : Pivot) : Prop :=
  p.low ≤ p.high ∧ ∀ s ∈ p.strokes, s.low ≤ p.high ∧ p.low ≤ s.high

/-- The direction of any stroke that starts at a fractal of type `t`:
up from a bottom, down from a top. -/
def nextDir (t : FractalType) : Direction :=
  match t with
  | FractalType.bottom => Direction.up
  | FractalType.top => Direction.down

/-! ### Concrete inputs used by the scenario checks, counterexamples and
witnesses -/

/-- A down bar [0, 100] (close < open). -/
def exBarWide : Bar := { dt := 1, opn := 60, close := 50, high := 100, low := 0 }

/-- A bar [40, 110]: neither contains nor is contained by `exBarWide`. -/
def exBarMid : Bar := { dt := 2, opn := 50, close := 60, high := 110, low := 40 }

/-- A bar [45, 95], contained in `exBarMid`. -/
def exBarNarrow : Bar := { dt := 3, opn := 50, close := 60, high := 95, low := 45 }

/-- The spec's inclusion scenario: Bar1(high 115, low 95), an up bar
(open 100 < close 110). -/
def scenBar1 : Bar := { dt := 1, opn := 100, close := 110, high := 115, low := 95 }

/-- Scenario Bar2(high 112, low 100), contained in Bar1. -/
def scenBar2 : Bar := { dt := 2, opn := 110, close := 105, high := 112, low := 100 }

/-- Scenario Bar3(high 120, low 103). -/
def scenBar3 : Bar := { dt := 3, opn := 105, close := 115, high := 120, low := 103 }

/-- A plain merged bar at timestamp `i` with range [0, 2] and index `i`,
used to give example fractals constituent bars. -/
def exBarAt (i : ℤ) : Bar :=
  { dt := i, opn := 1, close := 1, high := 2, low := 0, index := i }

/-- A bottom fractal at list position 0 whose center bar has index 1. -/
def exFracAdj0 : Fractal :=
  { fractal_type := FractalType.bottom
    dt := 1
    high := 6
    low := 5
    bars := [exBarAt 0, exBarAt 1, exBarAt 2]
    index := 0 }

/-- A top fractal at list position 1 whose center bar has index 2 — only
one merged-bar position after `exFracAdj0`'s center. -/
def exFracAdj1 : Fractal :=
  { fractal_type := FractalType.top
    dt := 2
    high := 10
    low := 9
    bars := [exBarAt 1, exBarAt 2, exBarAt 3]
    index := 1 }

/-- A fractal at list position 5 whose center bar has index 0 (used to
exercise the equal-list-index branch of the separation test). -/
def exFracEq0 : Fractal :=
  { fractal_type := FractalType.bottom
    dt := 1
    high := 6
    low := 5
    bars := [exBarAt (-1), exBarAt 0, exBarAt 1]
    index := 5 }

/-- A fractal at the same list position 5 whose center bar has index
10. -/
def exFracEq1 : Fractal :=
  { fractal_type := FractalType.top
    dt := 2
    high := 10
    low := 9
    bars := [exBarAt 9, exBarAt 10, exBarAt 11]
    index := 5 }

/-- A fractal at list position 5 with no constituent bars and a
timestamp found in no merged-bar list (used to exercise the fail-open
branch). -/
def exFracEmpty0 : Fractal :=
  { fractal_type := FractalType.bottom, dt := 1, high := 6, low := 5, index := 5 }

/-- A second bar-less fractal at list position 5. -/
def exFracEmpty1 : Fractal :=
  { fractal_type := FractalType.top, dt := 2, high := 10, low := 9, index := 5 }

/-- Shorthand for a fractal without constituent bars. -/
def mkFrac (t : FractalType) (d : ℤ) (h l : ℚ) (i : ℕ) : Fractal :=
  { fractal_type := t, dt := d, high := h, low := l, index := i }

/-- Shorthand for a stroke from two fractals. -/
def mkStk (d : Direction) (f g : Fractal) : Stroke :=
  { direction := d, start_fractal := f, end_fractal := g }

/-- Stroke with range [10, 20]. -/
def exStkA : Stroke :=
  mkStk Direction.up (mkFrac FractalType.bottom 0 11 10 0)
    (mkFrac FractalType.top 1 20 19 1)

/-- Stroke with range [12, 22]. -/
def exStkB : Stroke :=
  mkStk Direction.down (mkFrac FractalType.top 2 22 21 2)
    (mkFrac FractalType.bottom 3 13 12 3)

/-- Stroke with range [14, 24]. -/
def exStkC : Stroke :=
  mkStk Direction.up (mkFrac FractalType.bottom 4 15 14 4)
    (mkFrac FractalType.top 5 24 23 5)

/-- Stroke with range [20, 26]: its low touches the seeded band's upper
edge [14, 20] exactly, so absorbing it collapses the band to a point. -/
def exStkD : Stroke :=
  mkStk Direction.down (mkFrac FractalType.top 6 26 25 6)
    (mkFrac FractalType.bottom 7 21 20 7)

/-- The stroke whose end time matches the example pivot's end time. -/
def exStkPivotEnd : Stroke :=
  mkStk Direction.up (mkFrac FractalType.bottom 90 16 15 0)
    (mkFrac FractalType.top 100 22 21 1)

/-- The leaving stroke: direction down, range [5, 8] entirely below the
pivot band [10, 12]. -/
def exStkLeave : Stroke :=
  mkStk Direction.down (mkFrac FractalType.top 101 8 7 2)
    (mkFrac FractalType.bottom 102 6 5 3)

/-- The return stroke: direction up, range [6, 9], still entirely below
the pivot band. -/
def exStkReturn : Stroke :=
  mkStk Direction.up (mkFrac FractalType.bottom 103 7 6 4)
    (mkFrac FractalType.top 104 9 8 5)

/-- A pivot with band [10, 12] ending at time 100. -/
def exPivotC1 : Pivot :=
  { level := 1
    direction := Direction.up
    high := 12
    low := 10
    start_dt := 90
    end_dt := 100 }

/-- A level-1 trade point for the nested-confirmation witness. -/
def exBasePoint : TradePoint :=
  { point_type := TradePointType.buy1, dt := 10, price := 5, strength := 8/10 }

/-- A level-2 trade point of the same type four days later (within the
level-2 tolerance of 10 days). -/
def exHighPoint : TradePoint :=
  { point_type := TradePointType.buy1, dt := 14, price := 6, strength := 1/2 }

/-- The analyzer table for the nested-confirmation witness. -/
def exNestedTbl : List (ℕ × List TradePoint) :=
  [(1, [exBasePoint]), (2, [exHighPoint])]

/-! ## Theorems -/

/-- C1: the claim fails on the code.  At a pivot with band [10, 12]
whose leaving stroke exits cleanly below the pivot low (direction down,
high 8 < 10) and whose return stroke reverses but stays below the band
(direction up, high 9 < 10), the third-class detector emits nothing at
all: the source constructs the `SELL_3` trade point but never appends
it to the trade-point list, so no Sell3 ever reaches the final list. -/
theorem c1_sell3_dropped :
    (exStkLeave.direction = Direction.down ∧ exStkLeave.high < exPivotC1.low ∧
     exStkReturn.direction = Direction.up ∧ exStkReturn.high < exPivotC1.low ∧
     exStkPivotEnd.end_dt = exPivotC1.end_dt) ∧
    identifyThirdClassPoints [exStkPivotEnd, exStkLeave, exStkReturn]
      [exPivotC1] [] = [] := by
  constructor
  · refine ⟨rfl, by norm_num [exStkLeave, exPivotC1, Stroke.high, mkStk, mkFrac], rfl, ?_, rfl⟩
    norm_num [exStkReturn, exPivotC1, Stroke.high, mkStk, mkFrac]
  · rfl

/-- C4: the claim fails on the code, which contradicts the source's own
documented guarantee that merged bars contain no inclusion pair.  On
the three bars [0,100] (down), [40,110], [45,95], the merger folds the
third bar into the second producing [40,95], which IS contained in the
untouched first bar [0,100]; re-running the merger on the output
therefore merges again and yields a different (shorter) sequence. -/
theorem c4_merger_not_idempotent :
    hasInclusion ((mergeBars [exBarWide, exBarMid, exBarNarrow]).getD 0 default)
      ((mergeBars [exBarWide, exBarMid, exBarNarrow]).getD 1 default) = true ∧
    mergeBars (mergeBars [exBarWide, exBarMid, exBarNarrow]) ≠
      mergeBars [exBarWide, exBarMid, exBarNarrow] := by
  constructor
  · decide
  · decide

/-- C2 counterexample: the stroke builder admits a fractal pair whose
center bars are only 1 merged-bar position apart (not ≥ 3): the
separation test short-circuits on the fractal-list index difference and
never reaches the bar-index comparison, so a stroke is emitted. -/
theorem c2_adjacent_fractals_admitted :
    (identifyStrokes [] [exFracAdj0, exFracAdj1]).length = 1 ∧
    hasEnoughBarsBetween [] exFracAdj0 exFracAdj1 = true ∧
    (centerBarIndex exFracAdj1 - centerBarIndex exFracAdj0).natAbs = 1 := by
  refine ⟨by decide, by decide, by decide⟩

/-- C3 counterexample: a pivot emitted by the detector with
`pivot.low = pivot.high` (not strictly less).  Seeding strokes with
ranges [10,20], [12,22], [14,24] give the band [14,20]; the fourth
stroke [20,26] touches the band's upper edge, is absorbed (the
intersection test is non-strict) and collapses the band to [20,20]. -/
theorem c3_pivot_band_collapse :
    ∃ p ∈ identifyPivots [exStkA, exStkB, exStkC, exStkD], ¬ p.low < p.high := by
  decide

theorem dropLast_getLast?_eq (acc : List Bar) (h : 2 ≤ acc.length) :
    acc.dropLast.getLast? = acc.get? (acc.length - 2) := by
  rw [List.getLast?_eq_getElem?, List.dropLast_eq_take, List.length_take]
  rw [List.getElem?_take_of_lt]
  · rw [List.get?_eq_getElem?]
    congr 1
    omega
  · omega

theorem trendDir_eq_spec (acc : List Bar) (last : Bar)
    (h : acc.getLast? = some last) :
    ((acc.dropLast.getLast?).map Bar.direction).getD last.direction =
      specTrendDirection acc last := by
  by_cases h2 : 2 ≤ acc.length
  · rw [dropLast_getLast?_eq acc h2, specTrendDirection, if_pos h2]
  · have hne : acc ≠ [] := by
      intro hnil
      rw [hnil] at h
      exact Option.noConfusion h
    have h1 : acc.length = 1 := by
      have := List.length_pos.mpr hne
      omega
    have hd : acc.dropLast = [] := by
      rw [List.dropLast_eq_take, h1]
      simp
    rw [hd, specTrendDirection, if_neg h2]
    rfl

theorem mergeTwo_up_bounds (last current : Bar)
    (hl : last.low ≤ last.high) (hc : current.low ≤ current.high) :
    max last.low current.low ≤ max last.high current.high :=
  max_le (hl.trans (le_max_left _ _)) (hc.trans (le_max_right _ _))

theorem mergeTwo_down_bounds (last current : Bar)
    (hl : last.low ≤ last.high) (hc : current.low ≤ current.high) :
    min last.low current.low ≤ min last.high current.high :=
  le_min ((min_le_left _ _).trans hl) ((min_le_right _ _).trans hc)

theorem mergeTwo_clamped (d : Direction) (last current : Bar)
    (hl : last.low ≤ last.high) (hc : current.low ≤ current.high) :
    (mergeTwo d last current).low ≤ (mergeTwo d last current).opn ∧
    (mergeTwo d last current).opn ≤ (mergeTwo d last current).high ∧
    (mergeTwo d last current).low ≤ (mergeTwo d last current).close ∧
    (mergeTwo d last current).close ≤ (mergeTwo d last current).high := by
  cases d with
  | up =>
      have hb := mergeTwo_up_bounds last current hl hc
      exact ⟨le_max_right _ _, max_le (min_le_right _ _) hb,
        le_max_right _ _, max_le (min_le_right _ _) hb⟩
  | down =>
      have hb := mergeTwo_down_bounds last current hl hc
      exact ⟨le_max_right _ _, max_le (min_le_right _ _) hb,
        le_max_right _ _, max_le (min_le_right _ _) hb⟩

/-- C5: when the merger finds the current bar and the last accumulated
bar in containment, it replaces the last accumulated bar by their
merge, whose trend is the direction of the bar two positions back in
the accumulator (the last bar's own direction when fewer than two are
accumulated); trend up takes the max of the highs and the max of the
lows, trend down the min of the highs and the min of the lows, the
open/close are clamped into the new range, and the volume is the sum.
The spec's concrete scenario — Bar1(115, 95) up, Bar2(112, 100)
contained, Bar3(120, 103) — leaves exactly two merged bars, the first
being the Bar1+Bar2 merge [100, 115]. -/
theorem c5_merge_contained_semantics :
    (∀ (acc : List Bar) (last current : Bar),
      acc.getLast? = some last →
      hasInclusion last current = true →
      last.low ≤ last.high → current.low ≤ current.high →
      mergeStep acc current =
        acc.dropLast ++ [mergeTwo (specTrendDirection acc last) last current] ∧
      (∀ d : Direction,
        (d = Direction.up →
          (mergeTwo d last current).high = max last.high current.high ∧
          (mergeTwo d last current).low = max last.low current.low) ∧
        (d = Direction.down →
          (mergeTwo d last current).high = min last.high current.high ∧
          (mergeTwo d last current).low = min last.low current.low) ∧
        (mergeTwo d last current).low ≤ (mergeTwo d last current).opn ∧
        (mergeTwo d last current).opn ≤ (mergeTwo d last current).high ∧
        (mergeTwo d last current).low ≤ (mergeTwo d last current).close ∧
        (mergeTwo d last current).close ≤ (mergeTwo d last current).high ∧
        (mergeTwo d last current).vol = last.vol + current.vol)) ∧
    (mergeBars [scenBar1, scenBar2, scenBar3]).length = 2 ∧
    ((mergeBars [scenBar1, scenBar2, scenBar3]).getD 0 default).high = 115 ∧
    ((mergeBars [scenBar1, scenBar2, scenBar3]).getD 0 default).low = 100 ∧
    (mergeBars [scenBar1, scenBar2, scenBar3]).getD 1 default = scenBar3 := by
  refine ⟨?_, by decide, by decide, by decide, by decide⟩
  intro acc last current hlast hincl hl hc
  constructor
  · rw [mergeStep, hlast]
    simp only [hincl, if_pos]
    rw [trendDir_eq_spec acc last hlast]
  · intro d
    refine ⟨?_, ?_, mergeTwo_clamped d last current hl hc |>.1,
      (mergeTwo_clamped d last current hl hc).2.1,
      (mergeTwo_clamped d last current hl hc).2.2.1,
      (mergeTwo_clamped d last current hl hc).2.2.2, ?_⟩
    · rintro rfl
      exact ⟨rfl, rfl⟩
    · rintro rfl
      exact ⟨rfl, rfl⟩
    · cases d <;> rfl

/-- Witness for C5 at a concrete input: the accumulator `[scenBar1]`
and the contained bar `scenBar2`. -/
theorem c5_merge_contained_semantics_witness :
    mergeStep [scenBar1] scenBar2 =
      [mergeTwo (specTrendDirection [scenBar1] scenBar1) scenBar1 scenBar2] :=
  (c5_merge_contained_semantics.1 [scenBar1] scenBar1 scenBar2 rfl
    (by decide) (by decide) (by decide)).1

theorem mergeTwo_valid (d : Direction) (last current : Bar)
    (hl : last.low ≤ last.high) (hc : current.low ≤ current.high) :
    (mergeTwo d last current).Valid := by
  obtain ⟨h1, h2, h3, h4⟩ := mergeTwo_clamped d last current hl hc
  exact ⟨h1.trans h2, max_le h2 h4, le_min h1 h3⟩

theorem mergeStep_valid (acc : List Bar) (cur : Bar)
    (hacc : ∀ b ∈ acc, b.Valid) (hcur : cur.Valid) :
    ∀ b ∈ mergeStep acc cur, b.Valid := by
  rw [mergeStep]
  cases hlast : acc.getLast? with
  | none =>
      intro b hb
      simp only [List.mem_singleton] at hb
      subst hb
      exact hcur
  | some last =>
      have hlmem : last ∈ acc := List.mem_of_mem_getLast? (by rw [hlast]; rfl)
      have hlv := hacc last hlmem
      by_cases hincl : hasInclusion last cur = true
      · simp only [hincl, if_pos]
        intro b hb
        rcases List.mem_append.1 hb with hb | hb
        · exact hacc b ((List.dropLast_sublist acc).subset hb)
        · simp only [List.mem_singleton] at hb
          subst hb
          exact mergeTwo_valid _ last cur hlv.1 hcur.1
      · simp only [hincl, if_neg, Bool.false_eq_true, not_false_eq_true]
        intro b hb
        rcases List.mem_append.1 hb with hb | hb
        · exact hacc b hb
        · simp only [List.mem_singleton] at hb
          subst hb
          exact hcur

theorem foldl_mergeStep_valid (rest : List Bar) :
    ∀ acc : List Bar, (∀ b ∈ acc, b.Valid) → (∀ b ∈ rest, b.Valid) →
      ∀ b ∈ rest.foldl mergeStep acc, b.Valid := by
  induction rest with
  | nil => intro acc hacc _ b hb; exact hacc b hb
  | cons x xs ih =>
      intro acc hacc hrest b hb
      refine ih (mergeStep acc x) ?_ ?_ b hb
      · exact mergeStep_valid acc x hacc (hrest x (List.mem_cons_self x xs))
      · intro y hy
        exact hrest y (List.mem_cons_of_mem x hy)

/-- C10: on any input of valid bars, every bar the merger synthesizes
also satisfies the three constructor invariants (low ≤ high, high ≥
max(open, close), low ≤ min(open, close)), so `_merge_bars` can never
trigger the `Bar.__post_init__` validation error: the clamps land the
open/close inside the new range and the new range is non-degenerate
under both merge polarities. -/
theorem c10_merger_preserves_validity (bars : List Bar)
    (hv : ∀ b ∈ bars, b.Valid) : ∀ b ∈ mergeBars bars, b.Valid := by
  match bars with
  | [] => intro b hb; cases hb
  | [x] =>
      intro b hb
      simp only [mergeBars, List.mem_singleton] at hb
      subst hb
      exact hv b (List.mem_singleton.mpr rfl)
  | x :: y :: rest =>
      have hm : mergeBars (x :: y :: rest) = (y :: rest).foldl mergeStep [x] := rfl
      rw [hm]
      refine foldl_mergeStep_valid (y :: rest) [x] ?_ ?_
      · intro b hb
        simp only [List.mem_singleton] at hb
        subst hb
        exact hv b (List.mem_cons_self _ _)
      · intro b hb
        exact hv b (List.mem_cons_of_mem x hb)

/-- Witness for C10 on the spec's inclusion scenario. -/
theorem c10_merger_preserves_validity_witness :
    (∀ b ∈ [scenBar1, scenBar2, scenBar3], b.Valid) ∧
    ∀ b ∈ mergeBars [scenBar1, scenBar2, scenBar3], b.Valid :=
  ⟨by decide, c10_merger_preserves_validity [scenBar1, scenBar2, scenBar3]
    (by decide)⟩

theorem emaGo_getD (alpha : ℚ) (xs : List ℚ) :
    ∀ (prev : ℚ) (i : ℕ), i + 1 < (prev :: emaGo alpha prev xs).length →
      (prev :: emaGo alpha prev xs).getD (i + 1) 0 =
        alpha * xs.getD i 0 +
          (1 - alpha) * (prev :: emaGo alpha prev xs).getD i 0 := by
  induction xs with
  | nil => intro prev i h; simp [emaGo] at h
  | cons x xs ih =>
      intro prev i h
      cases i with
      | zero => simp [emaGo]
      | succ j =>
          simp only [emaGo, List.getD_cons_succ]
          refine ih (alpha * x + (1 - alpha) * prev) j ?_
          simpa [emaGo] using h

theorem zipWith_getD (f : ℚ → ℚ → ℚ) :
    ∀ (as bs : List ℚ) (i : ℕ), i < (List.zipWith f as bs).length →
      (List.zipWith f as bs).getD i 0 = f (as.getD i 0) (bs.getD i 0) := by
  intro as
  induction as with
  | nil => intro bs i h; simp at h
  | cons a as ih =>
      intro bs i h
      cases bs with
      | nil => simp at h
      | cons b bs =>
          cases i with
          | zero => simp
          | succ j =>
              simp only [List.zipWith_cons_cons, List.getD_cons_succ]
              refine ih bs j ?_
              simpa using h

/-- C8: the momentum series builder returns three empty series when the
merged-bar closes are shorter than the slow period; otherwise every
exponential moving average is seeded at the first input value and obeys
`value[i+1] = α·x[i+1] + (1−α)·value[i]` with `α = 2/(period+1)`, and
every histogram entry is twice the difference between the divergence
line and the signal line. -/
theorem c8_macd_spec :
    (∀ (closes : List ℚ) (short long signal : ℕ), closes.length < long →
      calculateMacd closes short long signal = ([], [], [])) ∧
    (∀ (x : ℚ) (xs : List ℚ) (p : ℕ), (ema (x :: xs) p).getD 0 0 = x) ∧
    (∀ (data : List ℚ) (p i : ℕ), i + 1 < (ema data p).length →
      (ema data p).getD (i + 1) 0 =
        (2 / ((p : ℚ) + 1)) * data.getD (i + 1) 0 +
          (1 - 2 / ((p : ℚ) + 1)) * (ema data p).getD i 0) ∧
    (∀ (closes : List ℚ) (short long signal : ℕ) (i : ℕ),
      i < (calculateMacd closes short long signal).2.2.length →
      (calculateMacd closes short long signal).2.2.getD i 0 =
        2 * ((calculateMacd closes short long signal).1.getD i 0 -
          (calculateMacd closes short long signal).2.1.getD i 0)) := by
  refine ⟨?_, ?_, ?_, ?_⟩
  · intro closes short long signal h
    rw [calculateMacd, if_pos h]
  · intro x xs p
    rfl
  · intro data p i h
    match data with
    | [] => simp [ema] at h
    | x :: xs =>
        simp only [ema] at h ⊢
        rw [emaGo_getD _ xs x i h]
        simp
  · intro closes short long signal i h
    by_cases hlt : closes.length < long
    · rw [calculateMacd, if_pos hlt] at h
      simp at h
    · rw [calculateMacd, if_neg hlt] at h ⊢
      simp only at h ⊢
      rw [zipWith_getD _ _ _ i h]
      rw [mul_comm]

/-- Witness for C8 at concrete inputs: a too-short close series, one
EMA recurrence step, and one histogram entry. -/
theorem c8_macd_spec_witness :
    calculateMacd [1, 2] 1 3 1 = ([], [], []) ∧
    (ema [1, 2, 4] 1).getD 1 0 =
      (2 / ((1 : ℚ) + 1)) * 2 +
        (1 - 2 / ((1 : ℚ) + 1)) * (ema [1, 2, 4] 1).getD 0 0 ∧
    (calculateMacd [1, 2, 3] 2 3 2).2.2.getD 2 0 =
      2 * ((calculateMacd [1, 2, 3] 2 3 2).1.getD 2 0 -
        (calculateMacd [1, 2, 3] 2 3 2).2.1.getD 2 0) := by
  refine ⟨c8_macd_spec.1 [1, 2] 1 3 1 (by decide), ?_, ?_⟩
  · have h := c8_macd_spec.2.2.1 [1, 2, 4] 1 0 (by decide)
    simpa using h
  · exact c8_macd_spec.2.2.2 [1, 2, 3] 2 3 2 2 (by decide)

/-- C2 (amended): the separation test admits a fractal pair whenever
the fractals' positions in the fractal list differ (which holds for
every pair the stroke builder actually tests); only when the positions
coincide does it compare the center bars' bar-index distance (≥ 3),
fall back to the timestamp search, and fail open when the search cannot
locate either timestamp. -/
theorem c2_separation_characterization :
    ∀ (bars : List Bar) (f1 f2 : Fractal),
      (f1.index ≠ f2.index → hasEnoughBarsBetween bars f1 f2 = true) ∧
      (f1.index = f2.index → f1.bars ≠ [] → f2.bars ≠ [] →
        (hasEnoughBarsBetween bars f1 f2 = true ↔
          3 ≤ (centerBarIndex f2 - centerBarIndex f1).natAbs)) ∧
      (f1.index = f2.index → (f1.bars = [] ∨ f2.bars = []) →
        ∀ a b : ℕ, lastIdxWithDt bars f1.dt = some a →
          lastIdxWithDt bars f2.dt = some b →
          (hasEnoughBarsBetween bars f1 f2 = true ↔
            3 ≤ ((b : ℤ) - (a : ℤ)).natAbs)) ∧
      (f1.index = f2.index → (f1.bars = [] ∨ f2.bars = []) →
        (lastIdxWithDt bars f1.dt = none ∨ lastIdxWithDt bars f2.dt = none) →
        hasEnoughBarsBetween bars f1 f2 = true) := by
  intro bars f1 f2
  refine ⟨?_, ?_, ?_, ?_⟩
  · intro hne
    rw [hasEnoughBarsBetween, if_pos]
    omega
  · intro heq hb1 hb2
    rw [hasEnoughBarsBetween, if_neg (by omega), if_pos ⟨hb1, hb2⟩]
    exact decide_eq_true_iff
  · intro heq hbe a b ha hb
    rw [hasEnoughBarsBetween, if_neg (by omega), if_neg (by tauto), ha, hb]
    exact decide_eq_true_iff
  · intro heq hbe hnone
    rw [hasEnoughBarsBetween, if_neg (by omega), if_neg (by tauto)]
    rcases hnone with h1 | h1
    · rw [h1]
    · rw [h1]
      cases lastIdxWithDt bars f1.dt <;> rfl

/-- Witness for C2's amended statement: an unequal-index pair is
admitted outright; an equal-index pair with center bars 10 apart passes
the bar-distance test; an equal-index, bar-less pair whose timestamps
appear in no merged bar is admitted fail-open. -/
theorem c2_separation_characterization_witness :
    hasEnoughBarsBetween [] exFracAdj0 exFracAdj1 = true ∧
    hasEnoughBarsBetween [] exFracEq0 exFracEq1 = true ∧
    hasEnoughBarsBetween [] exFracEmpty0 exFracEmpty1 = true := by
  refine ⟨(c2_separation_characterization [] exFracAdj0 exFracAdj1).1
    (by decide), ?_, ?_⟩
  · exact ((c2_separation_characterization [] exFracEq0 exFracEq1).2.1
      (by decide) (by decide) (by decide)).mpr (by decide)
  · exact (c2_separation_characterization [] exFracEmpty0 exFracEmpty1).2.2.2
      (by decide) (Or.inl (by decide)) (Or.inl (by decide))

theorem nested_foldl_mono (tbl : List (ℕ × List TradePoint)) (levels : ℕ) :
    ∀ (l acc : List TradePoint) (x : TradePoint), x ∈ acc →
      x ∈ l.foldl (nestedStep tbl levels) acc := by
  intro l
  induction l with
  | nil => intro acc x hx; exact hx
  | cons b bs ih =>
      intro acc x hx
      rw [List.foldl_cons]
      refine ih _ x ?_
      rw [nestedStep]
      split
      · exact List.mem_append_left _ hx
      · exact hx

theorem nested_foldl_sound (tbl : List (ℕ × List TradePoint)) (levels : ℕ) :
    ∀ (l acc : List TradePoint) (x : TradePoint),
      x ∈ l.foldl (nestedStep tbl levels) acc →
      x ∈ acc ∨ ∃ b ∈ l, 1 ≤ confirmingLevels tbl levels b ∧
        ∃ n, x = boostedPoint b (confirmingLevels tbl levels b) n := by
  intro l
  induction l with
  | nil => intro acc x hx; exact Or.inl hx
  | cons b bs ih =>
      intro acc x hx
      rw [List.foldl_cons] at hx
      rcases ih _ x hx with hx' | ⟨b', hb', hc, n, rfl⟩
      · rw [nestedStep] at hx'
        by_cases hk : 2 ≤ confirmingLevels tbl levels b + 1
        · rw [if_pos hk] at hx'
          rcases List.mem_append.1 hx' with hx' | hx'
          · exact Or.inl hx'
          · simp only [List.mem_singleton] at hx'
            subst hx'
            exact Or.inr ⟨b, List.mem_cons_self _ _, by omega, acc.length, rfl⟩
        · rw [if_neg hk] at hx'
          exact Or.inl hx'
      · exact Or.inr ⟨b', List.mem_cons_of_mem _ hb', hc, n, rfl⟩

theorem nested_foldl_complete (tbl : List (ℕ × List TradePoint)) (levels : ℕ) :
    ∀ (l acc : List TradePoint) (b : TradePoint), b ∈ l →
      1 ≤ confirmingLevels tbl levels b →
      ∃ n, boostedPoint b (confirmingLevels tbl levels b) n ∈
        l.foldl (nestedStep tbl levels) acc := by
  intro l
  induction l with
  | nil => intro acc b hb; cases hb
  | cons b0 bs ih =>
      intro acc b hb hc
      rw [List.foldl_cons]
      rcases List.mem_cons.1 hb with rfl | hb'
      · refine ⟨acc.length, nested_foldl_mono tbl levels bs _ _ ?_⟩
        rw [nestedStep, if_pos (by omega)]
        exact List.mem_append_right _ (List.mem_singleton.mpr rfl)
      · exact ih _ b hb' hc

/-- C9: in the multi-resolution extension, every nested trade point
arises from a level-1 point confirmed by at least one higher level and
carries that point's type/time/price with strength
`min 0.98 (base.strength + 0.1 * k)` for `k` confirming levels; and
conversely every confirmed level-1 point yields such a nested point.
Level-1 points with no higher-level confirmation therefore produce no
nested trade point. -/
theorem c9_nested_spec (tbl : List (ℕ × List TradePoint)) (levels : ℕ) :
    (∀ tp ∈ findNestedTradePoints tbl levels,
      ∃ b ∈ (tbl.lookup 1).getD [], 1 ≤ confirmingLevels tbl levels b ∧
        tp.point_type = b.point_type ∧ tp.dt = b.dt ∧ tp.price = b.price ∧
        tp.macd_strength = b.macd_strength ∧
        tp.strength = min (98/100)
          (b.strength + (1/10) * (confirmingLevels tbl levels b))) ∧
    (∀ b ∈ (tbl.lookup 1).getD [], 1 ≤ confirmingLevels tbl levels b →
      ∃ tp ∈ findNestedTradePoints tbl levels,
        tp.point_type = b.point_type ∧ tp.dt = b.dt ∧ tp.price = b.price ∧
        tp.strength = min (98/100)
          (b.strength + (1/10) * (confirmingLevels tbl levels b))) := by
  constructor
  · intro tp htp
    rcases nested_foldl_sound tbl levels _ [] tp htp with hx | ⟨b, hb, hc, n, rfl⟩
    · cases hx
    · exact ⟨b, hb, hc, rfl, rfl, rfl, rfl, rfl⟩
  · intro b hb hc
    obtain ⟨n, hn⟩ := nested_foldl_complete tbl levels _ [] b hb hc
    exact ⟨boostedPoint b (confirmingLevels tbl levels b) n, hn,
      rfl, rfl, rfl, rfl⟩

/-- Witness for C9: with the two-level table `exNestedTbl`, the base
buy-1 point is confirmed by the level-2 point four days later, so a
nested point with strength min(0.98, 0.8 + 0.1) appears. -/
theorem c9_nested_spec_witness :
    ∃ tp ∈ findNestedTradePoints exNestedTbl 2,
      tp.point_type = exBasePoint.point_type ∧ tp.dt = exBasePoint.dt ∧
      tp.price = exBasePoint.price ∧
      tp.strength = min (98/100) (exBasePoint.strength +
        (1/10) * (confirmingLevels exNestedTbl 2 exBasePoint)) :=
  (c9_nested_spec exNestedTbl 2).2 exBasePoint
    (by show exBasePoint ∈ [exBasePoint]; exact List.mem_singleton.mpr rfl)
    (by decide)

theorem absorb_inv (strokes : List Stroke)
    (hlh : ∀ s ∈ strokes, s.low ≤ s.high) :
    ∀ (fuel j : ℕ) (oh ol : ℚ) (acc : List Stroke),
      ol ≤ oh → (∀ s ∈ acc, s.low ≤ ol ∧ oh ≤ s.high) →
      (absorb strokes fuel j oh ol acc).2.1 ≤
        (absorb strokes fuel j oh ol acc).1 ∧
      ∀ s ∈ (absorb strokes fuel j oh ol acc).2.2.1,
        s.low ≤ (absorb strokes fuel j oh ol acc).2.1 ∧
        (absorb strokes fuel j oh ol acc).1 ≤ s.high := by
  intro fuel
  induction fuel with
  | zero => intro j oh ol acc h1 h2; exact ⟨h1, h2⟩
  | succ fuel ih =>
      intro j oh ol acc h1 h2
      cases hg : strokes.get? j with
      | none =>
          simp only [absorb, hg]
          exact ⟨h1, h2⟩
      | some s =>
          simp only [absorb, hg]
          by_cases hcond : (decide (s.low ≤ oh) && decide (ol ≤ s.high)) = true
          · rw [if_pos hcond]
            obtain ⟨d1, d2⟩ := Bool.and_eq_true_iff.mp hcond
            have hlow : s.low ≤ oh := of_decide_eq_true d1
            have hhigh : ol ≤ s.high := of_decide_eq_true d2
            have hs : s.low ≤ s.high := hlh s (List.get?_mem hg)
            refine ih (j + 1) (min oh s.high) (max ol s.low) (acc ++ [s])
              (max_le (le_min h1 hhigh) (le_min hlow hs)) ?_
            intro t ht
            rcases List.mem_append.1 ht with ht | ht
            · exact ⟨(h2 t ht).1.trans (le_max_left _ _),
                (min_le_left _ _).trans (h2 t ht).2⟩
            · simp only [List.mem_singleton] at ht
              subst ht
              exact ⟨le_max_right _ _, min_le_right _ _⟩
          · rw [if_neg hcond]
            exact ⟨h1, h2⟩

theorem pivotsLoop_inv (strokes : List Stroke)
    (hlh : ∀ s ∈ strokes, s.low ≤ s.high) :
    ∀ (fuel i : ℕ) (acc : List Pivot),
      (∀ p ∈ acc, pivotBandInvariant p) →
      ∀ p ∈ pivotsLoop strokes fuel i acc, pivotBandInvariant p := by
  intro fuel
  induction fuel with
  | zero => intro i acc hacc p hp; exact hacc p hp
  | succ fuel ih =>
      intro i acc hacc p hp
      simp only [pivotsLoop] at hp
      split at hp
      · split at hp
        · rename_i h hov
          refine ih _ _ ?_ p hp
          intro q hq
          rcases List.mem_append.1 hq with hq | hq
          · exact hacc q hq
          · simp only [List.mem_singleton] at hq
            subst hq
            have hseed : ∀ s ∈ [strokes.get ⟨i, by omega⟩,
                strokes.get ⟨i + 1, by omega⟩, strokes.get ⟨i + 2, by omega⟩],
                s.low ≤ max (strokes.get ⟨i, by omega⟩).low
                    (max (strokes.get ⟨i + 1, by omega⟩).low
                      (strokes.get ⟨i + 2, by omega⟩).low) ∧
                  min (strokes.get ⟨i, by omega⟩).high
                    (min (strokes.get ⟨i + 1, by omega⟩).high
                      (strokes.get ⟨i + 2, by omega⟩).high) ≤ s.high := by
              intro s hs
              simp only [List.mem_cons, List.not_mem_nil, or_false] at hs
              rcases hs with rfl | rfl | rfl
              · exact ⟨le_max_left _ _, min_le_left _ _⟩
              · exact ⟨(le_max_left _ _).trans (le_max_right _ _),
                  (min_le_right _ _).trans (min_le_left _ _)⟩
              · exact ⟨(le_max_right _ _).trans (le_max_right _ _),
                  (min_le_right _ _).trans (min_le_right _ _)⟩
            have hr := absorb_inv strokes hlh (strokes.length + 1) (i + 3) _ _ _
              (le_of_lt hov) hseed
            refine ⟨hr.1, ?_⟩
            intro s hs2
            exact ⟨(hr.2 s hs2).1.trans hr.1, hr.1.trans (hr.2 s hs2).2⟩
        · exact ih _ _ hacc p hp
      · exact hacc p hp

/-- C3 (amended): for every pivot the detector emits, the band is
weakly ordered (`pivot.low ≤ pivot.high`; equality is reachable, see
the counterexample) and every constituent stroke's range intersects the
band. -/
theorem c3_pivot_band_invariant :
    ∀ strokes : List Stroke, (∀ s ∈ strokes, s.low ≤ s.high) →
      ∀ p ∈ identifyPivots strokes, pivotBandInvariant p := by
  intro strokes hlh p hp
  rw [identifyPivots] at hp
  split at hp
  · cases hp
  · exact pivotsLoop_inv strokes hlh _ 0 [] (by intro q hq; cases hq) p hp

/-- Witness for C3's amended invariant on the four concrete strokes of
the counterexample. -/
theorem c3_pivot_band_invariant_witness :
    (∀ s ∈ [exStkA, exStkB, exStkC, exStkD], s.low ≤ s.high) ∧
    ∀ p ∈ identifyPivots [exStkA, exStkB, exStkC, exStkD],
      pivotBandInvariant p :=
  ⟨by decide, c3_pivot_band_invariant [exStkA, exStkB, exStkC, exStkD]
    (by decide)⟩

theorem lookAheadGo_mem (fractals : List Fractal) (d : Direction)
    (t : FractalType) :
    ∀ (js : List ℕ) (b : Fractal × ℕ), b.1 ∈ fractals →
      (lookAheadGo fractals d t js b).1 ∈ fractals := by
  intro js
  induction js with
  | nil => intro b hb; exact hb
  | cons j js ih =>
      intro b hb
      obtain ⟨bf, bi⟩ := b
      simp only [lookAheadGo]
      split
      · exact hb
      · split
        · exact hb
        · rename_i nf heq hne
          cases d with
          | up =>
              by_cases hcmp : bf.high < nf.high
              · rw [if_pos hcmp]
                exact ih _ (List.get?_mem heq)
              · rw [if_neg hcmp]
                exact ih _ hb
          | down =>
              by_cases hcmp : nf.low < bf.low
              · rw [if_pos hcmp]
                exact ih _ (List.get?_mem heq)
              · rw [if_neg hcmp]
                exact ih _ hb

theorem lookAheadGo_type (fractals : List Fractal) (d : Direction)
    (t : FractalType) :
    ∀ (js : List ℕ) (b : Fractal × ℕ), b.1.fractal_type = t →
      (lookAheadGo fractals d t js b).1.fractal_type = t := by
  intro js
  induction js with
  | nil => intro b hb; exact hb
  | cons j js ih =>
      intro b hb
      obtain ⟨bf, bi⟩ := b
      simp only [lookAheadGo]
      split
      · exact hb
      · split
        · exact hb
        · rename_i nf heq hne
          have hnf : nf.fractal_type = t := by
            by_contra hcon
            exact hne hcon
          cases d with
          | up =>
              by_cases hcmp : bf.high < nf.high
              · rw [if_pos hcmp]
                exact ih _ hnf
              · rw [if_neg hcmp]
                exact ih _ hb
          | down =>
              by_cases hcmp : nf.low < bf.low
              · rw [if_pos hcmp]
                exact ih _ hnf
              · rw [if_neg hcmp]
                exact ih _ hb

theorem lookAheadGo_high (fractals : List Fractal) (t : FractalType) :
    ∀ (js : List ℕ) (b : Fractal × ℕ),
      b.1.high ≤ (lookAheadGo fractals Direction.up t js b).1.high := by
  intro js
  induction js with
  | nil => intro b; exact le_rfl
  | cons j js ih =>
      intro b
      obtain ⟨bf, bi⟩ := b
      simp only [lookAheadGo]
      split
      · exact le_rfl
      · split
        · exact le_rfl
        · rename_i nf heq hne
          by_cases hcmp : bf.high < nf.high
          · rw [if_pos hcmp]
            exact (le_of_lt hcmp).trans (ih (nf, j))
          · rw [if_neg hcmp]
            exact ih (bf, bi)

theorem lookAheadGo_low (fractals : List Fractal) (t : FractalType) :
    ∀ (js : List ℕ) (b : Fractal × ℕ),
      (lookAheadGo fractals Direction.down t js b).1.low ≤ b.1.low := by
  intro js
  induction js with
  | nil => intro b; exact le_rfl
  | cons j js ih =>
      intro b
      obtain ⟨bf, bi⟩ := b
      simp only [lookAheadGo]
      split
      · exact le_rfl
      · split
        · exact le_rfl
        · rename_i nf heq hne
          by_cases hcmp : nf.low < bf.low
          · rw [if_pos hcmp]
            exact (ih (nf, j)).trans (le_of_lt hcmp)
          · rw [if_neg hcmp]
            exact ih (bf, bi)

theorem replaceStart_type (cs cand : Fractal)
    (hsame : cand.fractal_type = cs.fractal_type) :
    (replaceStart cs cand).fractal_type = cs.fractal_type := by
  rw [replaceStart]
  split <;> split <;> simp_all

theorem replaceStart_bounds (cs cand : Fractal)
    (hcs : cs.low ≤ cs.high) (hcand : cand.low ≤ cand.high) :
    (replaceStart cs cand).low ≤ (replaceStart cs cand).high := by
  rw [replaceStart]
  split <;> split <;> assumption

theorem directionFor_some (cs cand : Fractal) (d : Direction)
    (heq : directionFor cs cand = some d) :
    d = nextDir cs.fractal_type ∧
    (cs.fractal_type = FractalType.bottom → cs.high < cand.high) ∧
    (cs.fractal_type = FractalType.top → cand.low < cs.low) := by
  rw [directionFor] at heq
  cases hft : cs.fractal_type with
  | top =>
      simp only [hft] at heq
      by_cases hlt : cand.low < cs.low
      · rw [if_pos hlt] at heq
        injection heq with hd
        subst hd
        refine ⟨rfl, ?_, fun _ => hlt⟩
        intro hc
        cases hc
      · rw [if_neg hlt] at heq
        cases heq
  | bottom =>
      simp only [hft] at heq
      by_cases hlt : cs.high < cand.high
      · rw [if_pos hlt] at heq
        injection heq with hd
        subst hd
        refine ⟨rfl, fun _ => hlt, ?_⟩
        intro hc
        cases hc
      · rw [if_neg hlt] at heq
        cases heq

theorem nextDir_ne (t1 t2 : FractalType) (h : t1 ≠ t2) :
    nextDir t1 ≠ nextDir t2 := by
  cases t1 <;> cases t2 <;> simp_all [nextDir]

theorem fractalType_resolve (t1 t2 : FractalType) (h : t1 ≠ t2) :
    (t2 = FractalType.bottom → t1 = FractalType.top) ∧
    (t2 = FractalType.top → t1 = FractalType.bottom) := by
  cases t1 <;> cases t2 <;> simp_all

theorem strokesLoop_alternation (barsMerged : List Bar)
    (fractals : List Fractal) :
    ∀ (fuel : ℕ) (cs : Fractal) (i : ℕ) (acc : List Stroke),
      List.Chain' (fun a b => a.direction ≠ b.direction) acc →
      (∀ lst ∈ acc.getLast?, lst.direction ≠ nextDir cs.fractal_type) →
      List.Chain' (fun a b => a.direction ≠ b.direction)
        (strokesLoop barsMerged fractals fuel cs i acc) := by
  intro fuel
  induction fuel with
  | zero => intro cs i acc h1 h2; exact h1
  | succ fuel ih =>
      intro cs i acc h1 h2
      simp only [strokesLoop]
      split
      · rename_i h
        split
        · rename_i hsame
          refine ih (replaceStart cs (fractals.get ⟨i, h⟩)) (i + 1) acc h1 ?_
          intro lst hlst
          rw [replaceStart_type cs _ hsame]
          exact h2 lst hlst
        · rename_i hdiff
          split
          · split
            · rename_i d heq
              obtain ⟨hd, -, -⟩ := directionFor_some cs _ d heq
              have htype :
                  (lookAhead fractals d (fractals.get ⟨i, h⟩) i).1.fractal_type =
                    (fractals.get ⟨i, h⟩).fractal_type :=
                lookAheadGo_type fractals d _ _ _ rfl
              refine ih _ _ _ ?_ ?_
              · refine List.Chain'.append h1 (List.chain'_singleton _) ?_
                intro x hx y hy
                simp only [List.head?_cons, Option.mem_def, Option.some.injEq] at hy
                subst hy
                show x.direction ≠ d
                rw [hd]
                exact h2 x hx
              · intro lst hlst
                rw [List.getLast?_concat, Option.mem_def, Option.some.injEq] at hlst
                subst hlst
                show d ≠ nextDir (lookAhead fractals d (fractals.get ⟨i, h⟩) i).1.fractal_type
                rw [htype, hd]
                exact nextDir_ne cs.fractal_type (fractals.get ⟨i, h⟩).fractal_type
                  (fun hc => hdiff hc.symm)
            · exact ih cs (i + 1) acc h1 h2
          · exact ih cs (i + 1) acc h1 h2
      · exact h1

/-- C7: consecutive strokes emitted by the stroke builder always
alternate direction: each stroke's start fractal is the previous
stroke's end fractal, whose type is opposite to the previous start's. -/
theorem c7_strokes_alternate (barsMerged : List Bar)
    (fractals : List Fractal) :
    List.Chain' (fun a b => a.direction ≠ b.direction)
      (identifyStrokes barsMerged fractals) := by
  rw [identifyStrokes]
  split
  · exact List.chain'_nil
  · refine strokesLoop_alternation barsMerged fractals _ _ _ []
      List.chain'_nil ?_
    intro lst hlst
    cases hlst

theorem strokesLoop_mono (barsMerged : List Bar) (fractals : List Fractal)
    (hf : ∀ f ∈ fractals, f.low ≤ f.high) :
    ∀ (fuel : ℕ) (cs : Fractal) (i : ℕ) (acc : List Stroke),
      cs.low ≤ cs.high → (∀ s ∈ acc, strokeMono s) →
      ∀ s ∈ strokesLoop barsMerged fractals fuel cs i acc, strokeMono s := by
  intro fuel
  induction fuel with
  | zero => intro cs i acc hcs hacc s hs; exact hacc s hs
  | succ fuel ih =>
      intro cs i acc hcs hacc s hs
      simp only [strokesLoop] at hs
      split at hs
      · rename_i h
        split at hs
        · rename_i hsame
          exact ih _ (i + 1) acc
            (replaceStart_bounds cs _ hcs (hf _ (fractals.get_mem i h))) hacc s hs
        · rename_i hdiff
          split at hs
          · split at hs
            · rename_i d heq
              obtain ⟨hd, hbot, htop⟩ := directionFor_some cs _ d heq
              have hmem : (lookAhead fractals d (fractals.get ⟨i, h⟩) i).1 ∈
                  fractals :=
                lookAheadGo_mem fractals d _ _ _ (fractals.get_mem i h)
              have htype :
                  (lookAhead fractals d (fractals.get ⟨i, h⟩) i).1.fractal_type =
                    (fractals.get ⟨i, h⟩).fractal_type :=
                lookAheadGo_type fractals d _ _ _ rfl
              refine ih _ _ _ (hf _ hmem) ?_ s hs
              intro t ht
              rcases List.mem_append.1 ht with ht | ht
              · exact hacc t ht
              · simp only [List.mem_singleton] at ht
                subst ht
                cases hft : cs.fractal_type with
                | bottom =>
                    have hcand : (fractals.get ⟨i, h⟩).fractal_type =
                        FractalType.top :=
                      (fractalType_resolve _ _ hdiff).1 hft
                    have hdu : d = Direction.up := by rw [hd, hft]; rfl
                    constructor
                    · intro _
                      show cs.price <
                        (lookAhead fractals d (fractals.get ⟨i, h⟩) i).1.price
                      simp only [Fractal.price, hft, htype, hcand]
                      have h1 : cs.high < (fractals.get ⟨i, h⟩).high := hbot hft
                      have h2 : (fractals.get ⟨i, h⟩).high ≤
                          (lookAhead fractals d (fractals.get ⟨i, h⟩) i).1.high := by
                        rw [hdu]
                        exact lookAheadGo_high fractals _ _ _
                      exact lt_of_le_of_lt hcs (lt_of_lt_of_le h1 h2)
                    · intro hcon
                      have hcon2 : d = Direction.down := hcon
                      rw [hdu] at hcon2
                      cases hcon2
                | top =>
                    have hcand : (fractals.get ⟨i, h⟩).fractal_type =
                        FractalType.bottom :=
                      (fractalType_resolve _ _ hdiff).2 hft
                    have hdd : d = Direction.down := by rw [hd, hft]; rfl
                    constructor
                    · intro hcon
                      have hcon2 : d = Direction.up := hcon
                      rw [hdd] at hcon2
                      cases hcon2
                    · intro _
                      show (lookAhead fractals d (fractals.get ⟨i, h⟩) i).1.price
                        < cs.price
                      simp only [Fractal.price, hft, htype, hcand]
                      have h1 : (fractals.get ⟨i, h⟩).low < cs.low := htop hft
                      have h2 : (lookAhead fractals d
                          (fractals.get ⟨i, h⟩) i).1.low ≤
                          (fractals.get ⟨i, h⟩).low := by
                        rw [hdd]
                        exact lookAheadGo_low fractals _ _ _
                      exact (h2.trans_lt h1).trans_le hcs
            · exact ih cs (i + 1) acc hcs hacc s hs
          · exact ih cs (i + 1) acc hcs hacc s hs
      · exact hacc s hs

theorem findFirstValidStart_some_mem (barsMerged : List Bar)
    (fractals : List Fractal) (f : Fractal)
    (hf : findFirstValidStart barsMerged fractals = some f) :
    f ∈ fractals := by
  rw [findFirstValidStart] at hf
  split at hf
  · exact List.get?_mem hf
  · exact List.mem_of_mem_head? (Option.mem_def.mpr hf)

/-- C6: every stroke emitted by the stroke builder is monotonic in its
direction — an up stroke's end price (the end fractal's high) strictly
exceeds its start price (the start fractal's low), and a down stroke's
end price (low) is strictly below its start price (high) — provided
every input fractal has `low ≤ high` (true of all fractals the pipeline
builds, since both prices come from one validated bar). -/
theorem c6_stroke_monotonic (barsMerged : List Bar)
    (fractals : List Fractal) (hf : ∀ f ∈ fractals, f.low ≤ f.high) :
    ∀ s ∈ identifyStrokes barsMerged fractals, strokeMono s := by
  intro s hs
  simp only [identifyStrokes] at hs
  split at hs
  · cases hs
  · rename_i hlen
    have hne : fractals ≠ [] := by
      intro hnil
      rw [hnil] at hlen
      simp at hlen
    cases hstart : findFirstValidStart barsMerged fractals with
    | some f =>
        rw [hstart] at hs
        exact strokesLoop_mono barsMerged fractals hf _ _ _ []
          (hf f (findFirstValidStart_some_mem barsMerged fractals f hstart))
          (by intro t ht; cases ht) s hs
    | none =>
        rw [hstart] at hs
        obtain ⟨a, l, rfl⟩ := List.exists_cons_of_ne_nil hne
        exact strokesLoop_mono barsMerged (a :: l) hf _ _ _ []
          (hf a (List.mem_cons_self a l))
          (by intro t ht; cases ht) s hs

/-- Witness for C6 on the two concrete fractals that form one up
stroke. -/
theorem c6_stroke_monotonic_witness :
    (∀ f ∈ [exFracAdj0, exFracAdj1], f.low ≤ f.high) ∧
    ∀ s ∈ identifyStrokes [] [exFracAdj0, exFracAdj1], strokeMono s :=
  ⟨by decide, c6_stroke_monotonic [] [exFracAdj0, exFracAdj1] (by decide)⟩

end Chanlun
